import Mathlib

/-!
Verification of the EPUB translation pipeline (`main.go`).

The program walks a zip archive; members named `*.html` / `*.xhtml` are parsed,
the text nodes that are direct children of `<p>` elements are extracted
(trimmed of Unicode whitespace), joined with the delimiter `"\n---\n"`,
sent to the translation service in a single prompt, and the response is split
on the same delimiter; on a count match each segment is written back into its
originating node with the original leading/trailing whitespace restored.
All other members are copied verbatim.

The embedding below models the HTML tree as a first-child / next-sibling
structure (mirroring `golang.org/x/net/html.Node`), the translation service,
the parser and the renderer as abstract `Except`-valued functions, and byte
payloads as strings (Go strings are byte strings; equality of payloads is all
the claims need).
-/

namespace TranslEpub

/-- Go `unicode.IsSpace`: the Unicode White_Space code points.  This is the
cutset of `strings.TrimSpace` used at `main.go:66/68` and inside
`translateText` (`main.go:24`). -/
def goIsSpace (c : Char) : Bool :=
  c.toNat == 0x20 || (decide (0x09 ≤ c.toNat) && decide (c.toNat ≤ 0x0D)) ||
  c.toNat == 0x85 || c.toNat == 0xA0 || c.toNat == 0x1680 ||
  (decide (0x2000 ≤ c.toNat) && decide (c.toNat ≤ 0x200A)) ||
  c.toNat == 0x2028 || c.toNat == 0x2029 || c.toNat == 0x202F ||
  c.toNat == 0x205F || c.toNat == 0x3000

/-- The explicit cutset `" \t\n\r"` of `strings.TrimLeft` / `strings.TrimRight`
at `main.go:99-100`. -/
def isCut (c : Char) : Bool :=
  c == ' ' || c == '\t' || c == '\n' || c == '\r'

/-- Trim a character list on both ends with respect to a predicate. -/
def trimWith (p : Char → Bool) (l : List Char) : List Char :=
  ((l.dropWhile p).reverse.dropWhile p).reverse

/-- Go `strings.TrimSpace` (`main.go:24,66,68`). -/
def trimGo (s : String) : String := ⟨trimWith goIsSpace s.data⟩

/-- `startsWithL pat s` decides whether `pat` is an initial segment of `s`. -/
def startsWithL : List Char → List Char → Bool
  | [], _ => true
  | _ :: _, [] => false
  | a :: as, b :: bs => a == b && startsWithL as bs

/-- `endsWithL pat s` decides whether `pat` is a final segment of `s`;
models Go `strings.HasSuffix` (ASCII patterns, so byte- and rune-level
suffix tests agree). -/
def endsWithL (pat s : List Char) : Bool :=
  startsWithL pat.reverse s.reverse

/-- Fuel-driven scanner realizing Go `strings.Split` for a non-empty
separator: repeatedly find the leftmost occurrence of `sep`, cut there and
continue after it.  `fuel` bounds the number of scanning steps; each step
consumes at least one character, so `fuel = s.length` always suffices. -/
def splitAux (sep : List Char) : Nat → List Char → List Char → List (List Char)
  | _, acc, [] => [acc.reverse]
  | 0, acc, s => [acc.reverse ++ s]
  | fuel + 1, acc, c :: rest =>
    if startsWithL sep (c :: rest) then
      acc.reverse :: splitAux sep fuel [] (List.drop sep.length (c :: rest))
    else
      splitAux sep fuel (c :: acc) rest

/-- Go `strings.Split s sep` for a non-empty `sep` (`main.go:89`). -/
def splitL (sep s : List Char) : List (List Char) :=
  splitAux sep s.length [] s

/-- Tail of Go `strings.Join`: the remaining elements, each preceded by the
separator. -/
def joinRest (sep : String) : List String → String
  | [] => ""
  | t :: ts => sep ++ t ++ joinRest sep ts

/-- Go `strings.Join` (`main.go:83`). -/
def joinSep (sep : String) : List String → String
  | [] => ""
  | t :: ts => t ++ joinRest sep ts

/-- The fixed fragment delimiter `"\n---\n"` (`main.go:83,89`). -/
def delimS : String := "\n---\n"

def joinDelim (ts : List String) : String := joinSep delimS ts

def splitDelim (s : String) : List String :=
  (splitL delimS.data s.data).map fun l => ⟨l⟩

/-! ### The HTML tree

`golang.org/x/net/html.Node` is a first-child / next-sibling structure with a
`Type` and a `Data` field (tag name for elements, text content for text
nodes).  `nilNode` stands for a nil child/sibling pointer.  Document, comment
and doctype nodes are all `other` — the code at `main.go:61-77` only ever
distinguishes element and text nodes. -/

inductive NodeKind where
  | element
  | text
  | other
deriving DecidableEq, Repr

inductive HNode where
  | nilNode : HNode
  | node (kind : NodeKind) (data : String) (child : HNode) (sib : HNode) : HNode
deriving DecidableEq, Repr

/-- A step in a path through the child/sibling structure. -/
inductive Step where
  | down
  | right
deriving DecidableEq, Repr

/-- The kind and data of the node a path points at (a path stands for the
pointer Go holds in `textNodes`). -/
def infoAt : HNode → List Step → Option (NodeKind × String)
  | HNode.nilNode, _ => none
  | HNode.node k d _ _, [] => some (k, d)
  | HNode.node _ _ c _, Step.down :: p => infoAt c p
  | HNode.node _ _ _ s, Step.right :: p => infoAt s p

/-- Rewrite the data field of the node a path points at (the pointer
assignment `node.Data = ...` at `main.go:101`). -/
def updAt : HNode → List Step → (String → String) → HNode
  | HNode.nilNode, _, _ => HNode.nilNode
  | HNode.node k d c s, [], f => HNode.node k (f d) c s
  | HNode.node k d c s, Step.down :: p, f => HNode.node k d (updAt c p f) s
  | HNode.node k d c s, Step.right :: p, f => HNode.node k d c (updAt s p f)

/-! ### Fragment extraction (`main.go:58-77`)

The closure `f` visits a node: if it is a `<p>` element it appends every
direct text child with non-empty `TrimSpace` to `textNodes` (here: its path)
and the trimmed text to `textsToTranslate`; then it recurses into all
children.  `collectDirect` is the inner `for` loop over direct children,
`collectWalk` is `f` mapped over a sibling chain, `collectDoc` is the single
call `f(doc)`. -/

def collectDirect : HNode → List (List Step × String)
  | HNode.nilNode => []
  | HNode.node k d _ s =>
    (if k == NodeKind.text && trimGo d != "" then [(([] : List Step), d)] else []) ++
    (collectDirect s).map fun pd => (Step.right :: pd.1, pd.2)

def collectWalk : HNode → List (List Step × String)
  | HNode.nilNode => []
  | HNode.node k d c s =>
    (if k == NodeKind.element && d == "p"
      then (collectDirect c).map fun pd => (Step.down :: pd.1, pd.2) else []) ++
    (collectWalk c).map (fun pd => (Step.down :: pd.1, pd.2)) ++
    (collectWalk s).map fun pd => (Step.right :: pd.1, pd.2)

def collectDoc : HNode → List (List Step × String)
  | HNode.nilNode => []
  | HNode.node k d c _ =>
    (if k == NodeKind.element && d == "p"
      then (collectDirect c).map fun pd => (Step.down :: pd.1, pd.2) else []) ++
    (collectWalk c).map fun pd => (Step.down :: pd.1, pd.2)

/-- `textsToTranslate`: the trimmed contents, in extraction order. -/
def extractDoc (doc : HNode) : List String :=
  (collectDoc doc).map fun pd => trimGo pd.2

/-! ### Reinjection (`main.go:96-102`) -/

/-- `leadingSpace := originalText[:len(originalText)-len(strings.TrimLeft(originalText, " \t\n\r"))]`
(`main.go:99`; the cutset is ASCII so byte and rune counts agree). -/
def leadingSpaceOf (d : String) : String :=
  ⟨d.data.take (d.data.length - (d.data.dropWhile isCut).length)⟩

/-- `trailingSpace := originalText[len(strings.TrimRight(originalText, " \t\n\r")):]`
(`main.go:100`). -/
def trailingSpaceOf (d : String) : String :=
  ⟨d.data.drop ((d.data.reverse.dropWhile isCut).reverse.length)⟩

/-- `node.Data = leadingSpace + translatedTexts[i] + trailingSpace`
(`main.go:101`), as a function of the node's current data `d`. -/
def replData (d t : String) : String :=
  leadingSpaceOf d ++ t ++ trailingSpaceOf d

/-- One iteration of the mutation loop: rewrite the node at the stored path
with its translated text. -/
def injStep (acc : HNode) (pt : (List Step × String) × String) : HNode :=
  updAt acc pt.1.1 fun d => replData d pt.2

/-- The whole mutation loop `for i, node := range textNodes` (`main.go:96-102`):
pair the collected node paths with the translated segments in order and
rewrite each node. -/
def injDoc (doc : HNode) (ts : List String) : HNode :=
  (List.zip (collectDoc doc) ts).foldl injStep doc

/-! ### The translation call (`main.go:23-50`)

`service` stands for the composite of `model.GenerateContent` and the
candidate/part extraction: `Except.error` covers both the API error and the
"text not found in Gemini response" case, `Except.ok` the successfully
extracted text.  The second component of the result is the list of payloads
actually sent to the service, so that call counts and call contents are
observable. -/

/-- The prompt built at `main.go:28-31`. -/
def promptFor (text : String) : String :=
  "You are a professional translator. Translate the following text into natural and fluent Korean. Do not include any other explanations or supplementary text other than the translated text.\n\nOriginal Text:\n" ++ text

def translateText (service : String → Except String String) (text : String) :
    (String × Option String) × List String :=
  if trimGo text == "" then (("", none), [])
  else
    match service (promptFor text) with
    | Except.error e => (("", some ("Gemini API call error: " ++ e)), [promptFor text])
    | Except.ok t => ((t, none), [promptFor text])

/-! ### `processHTMLContent` (`main.go:52-110`) -/

def processHTMLContent (parse : String → Except String HNode)
    (render : HNode → Except String String)
    (service : String → Except String String)
    (htmlContent : String) : (String × Option String) × List String :=
  match parse htmlContent with
  | Except.error e => ((htmlContent, some ("HTML parsing error: " ++ e)), [])
  | Except.ok doc =>
    if (extractDoc doc).length = 0 then ((htmlContent, none), [])
    else
      match translateText service (joinDelim (extractDoc doc)) with
      | ((_, some e), log) => ((htmlContent, some e), log)
      | ((t, none), log) =>
        if (splitDelim t).length ≠ (extractDoc doc).length then
          ((htmlContent, none), log)
        else
          match render (injDoc doc (splitDelim t)) with
          | Except.error e => ((htmlContent, some ("error rendering modified HTML: " ++ e)), log)
          | Except.ok out => ((out, none), log)

/-! ### The archive loop (`main.go:151-194`)

A `ZMember` carries, besides the member's name and full content, the outcome
of every fallible per-member I/O operation the loop performs, so that each
error path of the loop is a reachable case of the model: `openOk` for
`file.Open`, `createOk` for `w.Create`, `readOk` for `io.ReadAll` (with
`readPart` the incomplete data `ReadAll` returns alongside its error, which the
code then writes), and `copyOk` for `io.Copy` (with `copyPart` the bytes
copied before the failure). -/

structure ZMember where
  name : String
  openOk : Bool
  createOk : Bool
  content : String
  readOk : Bool
  readPart : String
  copyOk : Bool
  copyPart : String
deriving Repr

/-- `strings.HasSuffix(file.Name, ".html") || strings.HasSuffix(file.Name, ".xhtml")`
(`main.go:166`). -/
def isMarkupName (name : String) : Bool :=
  endsWithL ".html".data name.data || endsWithL ".xhtml".data name.data

/-- The bytes written for a markup member once open/create succeeded
(`main.go:169-186`): the incomplete read data on read error, the original content when
`processHTMLContent` errors, otherwise its output. -/
def memberOut (parse : String → Except String HNode)
    (render : HNode → Except String String)
    (service : String → Except String String) (m : ZMember) : String :=
  if m.readOk = false then m.readPart
  else
    match processHTMLContent parse render service m.content with
    | ((out, none), _) => out
    | ((_, some _), _) => m.content

/-- One iteration of the member loop; `none` means the loop hit `continue`
without creating the output entry (open or create failure). -/
def processMember (parse : String → Except String HNode)
    (render : HNode → Except String String)
    (service : String → Except String String) (m : ZMember) :
    Option (String × String) :=
  if m.openOk = false then none
  else if m.createOk = false then none
  else if isMarkupName m.name then
    some (m.name, memberOut parse render service m)
  else
    some (m.name, if m.copyOk then m.content else m.copyPart)

/-- The whole `for _, file := range r.File` loop: the sequence of entries
written to the output archive. -/
def runPipeline (parse : String → Except String HNode)
    (render : HNode → Except String String)
    (service : String → Except String String) (ms : List ZMember) :
    List (String × String) :=
  ms.filterMap (processMember parse render service)

end TranslEpub

namespace TranslEpub

/-- The claim's 4-character trim (space, tab, newline, carriage return). -/
def trim4 (s : String) : String := ⟨trimWith isCut s.data⟩

/-- Refinement comparison definition, following the spec's words (§4.1 /
claim C4): a depth-first traversal over the full tree that emits a fragment
for each text node that is a direct child of a `"p"` element and whose
content is non-empty after trimming with `tr`; the emitted fragment is the
trimmed content.  `parentP` records whether the chain being walked consists
of direct children of a `"p"` element. -/
def dfsEmit (tr : String → String) (parentP : Bool) : HNode → List String
  | HNode.nilNode => []
  | HNode.node k d c s =>
    (if parentP && k == NodeKind.text && tr d != "" then [tr d] else []) ++
    dfsEmit tr (k == NodeKind.element && d == "p") c ++
    dfsEmit tr parentP s

/-- Refinement comparison definition, following the spec's words: the
fragments the spec's extraction contract emits for a document, with trim
function `tr`. -/
def specFragments (tr : String → String) : HNode → List String
  | HNode.nilNode => []
  | HNode.node k d c _ => dfsEmit tr (k == NodeKind.element && d == "p") c

end TranslEpub

namespace TranslEpub

/-! ### Concrete fixtures used by witnesses and counterexamples -/

/-- A parse function returning a fixed tree (stands for `html.Parse` on a
matching input). -/
def parseTo (doc : HNode) : String → Except String HNode := fun _ => Except.ok doc

/-- A parse function that fails. -/
def parseFail : String → Except String HNode := fun _ => Except.error "bad"

/-- A render function returning a fixed serialization. -/
def renderOk : HNode → Except String String := fun _ => Except.ok "rendered"

/-- A translation service always answering with two delimiter-separated
segments. -/
def serviceAB : String → Except String String := fun _ => Except.ok "A\n---\nB"

/-- Document: `<p>  Hi  </p>` (one eligible text node with whitespace). -/
def docHi : HNode :=
  HNode.node NodeKind.other ""
    (HNode.node NodeKind.element "p"
      (HNode.node NodeKind.text "  Hi  " HNode.nilNode HNode.nilNode)
      HNode.nilNode)
    HNode.nilNode

/-- Document: `<p>Hi</p><p>Bye</p>` (two eligible text nodes). -/
def docHiBye : HNode :=
  HNode.node NodeKind.other ""
    (HNode.node NodeKind.element "p"
      (HNode.node NodeKind.text "Hi" HNode.nilNode HNode.nilNode)
      (HNode.node NodeKind.element "p"
        (HNode.node NodeKind.text "Bye" HNode.nilNode HNode.nilNode)
        HNode.nilNode))
    HNode.nilNode

/-- Document: `<div>Hi</div>` (no eligible text node: not under a `p` element). -/
def docDiv : HNode :=
  HNode.node NodeKind.other ""
    (HNode.node NodeKind.element "div"
      (HNode.node NodeKind.text "Hi" HNode.nilNode HNode.nilNode)
      HNode.nilNode)
    HNode.nilNode

/-- Document: a `p` whose text content is a single vertical tab `U+000B`:
Unicode whitespace, but not in the claim's four-character set. -/
def docVT : HNode :=
  HNode.node NodeKind.other ""
    (HNode.node NodeKind.element "p"
      (HNode.node NodeKind.text "\x0B" HNode.nilNode HNode.nilNode)
      HNode.nilNode)
    HNode.nilNode

/-- Document: `<p>  Hello world  \n</p>` (the spec's whitespace example). -/
def docHello : HNode :=
  HNode.node NodeKind.other ""
    (HNode.node NodeKind.element "p"
      (HNode.node NodeKind.text "  Hello world  \n" HNode.nilNode HNode.nilNode)
      HNode.nilNode)
    HNode.nilNode

/-- A member whose in-archive open fails. -/
def mOpenFail : ZMember :=
  { name := "a.bin", openOk := false, createOk := true, content := "PAYLOAD",
    readOk := true, readPart := "", copyOk := true, copyPart := "" }

/-- A non-markup member for which all I/O succeeds. -/
def mImage : ZMember :=
  { name := "image.bin", openOk := true, createOk := true, content := "BYTES",
    readOk := true, readPart := "", copyOk := true, copyPart := "" }

end TranslEpub

namespace TranslEpub

/-- Rewriting the data at one path leaves every other path's view unchanged. -/
theorem infoAt_updAt_ne : ∀ (n : HNode) (p q : List Step) (f : String → String),
    p ≠ q → infoAt (updAt n q f) p = infoAt n p := by
  intro n
  induction n with
  | nilNode => intro p q f _; simp [updAt]
  | node k d c s ihc ihs =>
    intro p q f hpq
    cases q with
    | nil =>
      cases p with
      | nil => exact absurd rfl hpq
      | cons st p' => cases st <;> simp [updAt, infoAt]
    | cons st q' =>
      cases st with
      | down =>
        cases p with
        | nil => simp [updAt, infoAt]
        | cons st' p' =>
          cases st' with
          | down =>
            have : p' ≠ q' := fun h => hpq (by rw [h])
            simp [updAt, infoAt, ihc p' q' f this]
          | right => simp [updAt, infoAt]
      | right =>
        cases p with
        | nil => simp [updAt, infoAt]
        | cons st' p' =>
          cases st' with
          | down => simp [updAt, infoAt]
          | right =>
            have : p' ≠ q' := fun h => hpq (by rw [h])
            simp [updAt, infoAt, ihs p' q' f this]

/-- Rewriting the data at a valid path rewrites exactly that node's data. -/
theorem infoAt_updAt_eq : ∀ (n : HNode) (q : List Step) (f : String → String)
    (k : NodeKind) (d : String), infoAt n q = some (k, d) →
    infoAt (updAt n q f) q = some (k, f d) := by
  intro n
  induction n with
  | nilNode => intro q f k d h; simp [infoAt] at h
  | node k0 d0 c s ihc ihs =>
    intro q f k d h
    cases q with
    | nil =>
      simp [infoAt] at h
      simp [updAt, infoAt, h.1, h.2]
    | cons st q' =>
      cases st with
      | down =>
        simp only [infoAt] at h
        simp only [updAt, infoAt]
        exact ihc q' f k d h
      | right =>
        simp only [infoAt] at h
        simp only [updAt, infoAt]
        exact ihs q' f k d h

end TranslEpub

namespace TranslEpub

/-- Every entry collected by the direct-children loop points (relative to the
start of the chain) at a text node whose raw data it records, and the trimmed
data is non-empty. -/
theorem collectDirect_valid : ∀ (n : HNode) (pd : List Step × String),
    pd ∈ collectDirect n →
    infoAt n pd.1 = some (NodeKind.text, pd.2) ∧ trimGo pd.2 ≠ "" := by
  intro n
  induction n with
  | nilNode => intro pd h; simp [collectDirect] at h
  | node k d c s _ ihs =>
    intro pd h
    rw [collectDirect] at h
    rcases List.mem_append.mp h with h1 | h2
    · split at h1
      case isTrue hg =>
        simp at h1
        rcases (Bool.and_eq_true _ _).mp hg with ⟨hk, hd⟩
        subst h1
        have hk' : k = NodeKind.text := by simpa using hk
        subst hk'
        refine ⟨by simp [infoAt], by simpa using hd⟩
      case isFalse => simp at h1
    · rcases List.mem_map.mp h2 with ⟨pd', hpd', hmap⟩
      rcases ihs pd' hpd' with ⟨hinfo, htrim⟩
      subst hmap
      exact ⟨by simpa [infoAt] using hinfo, htrim⟩

/-- Every entry collected by the tree walk points at a text node whose raw
data it records, and the trimmed data is non-empty. -/
theorem collectWalk_valid : ∀ (n : HNode) (pd : List Step × String),
    pd ∈ collectWalk n →
    infoAt n pd.1 = some (NodeKind.text, pd.2) ∧ trimGo pd.2 ≠ "" := by
  intro n
  induction n with
  | nilNode => intro pd h; simp [collectWalk] at h
  | node k d c s ihc ihs =>
    intro pd h
    rw [collectWalk] at h
    rcases List.mem_append.mp h with h12 | h3
    · rcases List.mem_append.mp h12 with h1 | h2
      · split at h1
        case isTrue hg =>
          rcases List.mem_map.mp h1 with ⟨pd', hpd', hmap⟩
          rcases collectDirect_valid c pd' hpd' with ⟨hinfo, htrim⟩
          subst hmap
          exact ⟨by simpa [infoAt] using hinfo, htrim⟩
        case isFalse => simp at h1
      · rcases List.mem_map.mp h2 with ⟨pd', hpd', hmap⟩
        rcases ihc pd' hpd' with ⟨hinfo, htrim⟩
        subst hmap
        exact ⟨by simpa [infoAt] using hinfo, htrim⟩
    · rcases List.mem_map.mp h3 with ⟨pd', hpd', hmap⟩
      rcases ihs pd' hpd' with ⟨hinfo, htrim⟩
      subst hmap
      exact ⟨by simpa [infoAt] using hinfo, htrim⟩

/-- Every entry collected for the document points at a text node whose raw
data it records, and the trimmed data is non-empty. -/
theorem collectDoc_valid (doc : HNode) (pd : List Step × String)
    (h : pd ∈ collectDoc doc) :
    infoAt doc pd.1 = some (NodeKind.text, pd.2) ∧ trimGo pd.2 ≠ "" := by
  cases doc with
  | nilNode => simp [collectDoc] at h
  | node k d c s =>
    rw [collectDoc] at h
    rcases List.mem_append.mp h with h1 | h2
    · split at h1
      case isTrue hg =>
        rcases List.mem_map.mp h1 with ⟨pd', hpd', hmap⟩
        rcases collectDirect_valid c pd' hpd' with ⟨hinfo, htrim⟩
        subst hmap
        exact ⟨by simpa [infoAt] using hinfo, htrim⟩
      case isFalse => simp at h1
    · rcases List.mem_map.mp h2 with ⟨pd', hpd', hmap⟩
      rcases collectWalk_valid c pd' hpd' with ⟨hinfo, htrim⟩
      subst hmap
      exact ⟨by simpa [infoAt] using hinfo, htrim⟩

end TranslEpub

namespace TranslEpub

/-- Paths produced by the direct-children loop consist of `right` steps only. -/
theorem collectDirect_pure : ∀ (n : HNode) (pd : List Step × String),
    pd ∈ collectDirect n → ∀ st ∈ pd.1, st = Step.right := by
  intro n
  induction n with
  | nilNode => intro pd h; simp [collectDirect] at h
  | node k d c s _ ihs =>
    intro pd h
    rw [collectDirect] at h
    rcases List.mem_append.mp h with h1 | h2
    · split at h1
      · simp at h1; subst h1; intro st hst; simp at hst
      · simp at h1
    · rcases List.mem_map.mp h2 with ⟨pd', hpd', hmap⟩
      subst hmap
      intro st hst
      rcases List.mem_cons.mp hst with h | h
      · exact h
      · exact ihs pd' hpd' st h

/-- Every path produced by the tree walk contains a `down` step. -/
theorem collectWalk_down : ∀ (n : HNode) (pd : List Step × String),
    pd ∈ collectWalk n → ∃ st ∈ pd.1, st = Step.down := by
  intro n
  induction n with
  | nilNode => intro pd h; simp [collectWalk] at h
  | node k d c s _ ihs =>
    intro pd h
    rw [collectWalk] at h
    rcases List.mem_append.mp h with h12 | h3
    · rcases List.mem_append.mp h12 with h1 | h2
      · split at h1
        · rcases List.mem_map.mp h1 with ⟨pd', _, hmap⟩
          subst hmap
          exact ⟨Step.down, by simp⟩
        · simp at h1
      · rcases List.mem_map.mp h2 with ⟨pd', _, hmap⟩
        subst hmap
        exact ⟨Step.down, by simp⟩
    · rcases List.mem_map.mp h3 with ⟨pd', hpd', hmap⟩
      rcases ihs pd' hpd' with ⟨st, hst, hdown⟩
      subst hmap
      exact ⟨st, by simp [hst], hdown⟩

/-- The paths collected by the direct-children loop are pairwise distinct. -/
theorem collectDirect_nodup : ∀ (n : HNode),
    ((collectDirect n).map Prod.fst).Nodup := by
  intro n
  induction n with
  | nilNode => simp [collectDirect]
  | node k d c s _ ihs =>
    rw [collectDirect]
    rw [List.map_append]
    apply List.Nodup.append
    · split <;> simp
    · rw [List.map_map]
      have : (Prod.fst ∘ fun pd : List Step × String => (Step.right :: pd.1, pd.2)) =
          (fun p => Step.right :: p) ∘ Prod.fst := rfl
      rw [this, ← List.map_map]
      exact ihs.map fun a b hab => by simpa using hab
    · intro p hp hq
      split at hp
      · simp at hp
        subst hp
        simp [List.mem_map] at hq
      · simp at hp

/-- The paths collected by the tree walk are pairwise distinct. -/
theorem collectWalk_nodup : ∀ (n : HNode),
    ((collectWalk n).map Prod.fst).Nodup := by
  intro n
  induction n with
  | nilNode => simp [collectWalk]
  | node k d c s ihc ihs =>
    rw [collectWalk]
    rw [List.map_append, List.map_append]
    have hmapc : ∀ (l : List (List Step × String)),
        (l.map fun pd => (Step.down :: pd.1, pd.2)).map Prod.fst =
          (l.map Prod.fst).map fun p => Step.down :: p := by
      intro l; rw [List.map_map, List.map_map]; rfl
    have hmaps : ∀ (l : List (List Step × String)),
        (l.map fun pd => (Step.right :: pd.1, pd.2)).map Prod.fst =
          (l.map Prod.fst).map fun p => Step.right :: p := by
      intro l; rw [List.map_map, List.map_map]; rfl
    apply List.Nodup.append
    · apply List.Nodup.append
      · split
        · rw [hmapc]
          exact (collectDirect_nodup c).map fun a b hab => by simpa using hab
        · simp
      · rw [hmapc]
        exact ihc.map fun a b hab => by simpa using hab
      · -- direct paths (all right) vs walk paths (contain a down), prefixed by down
        intro p hp hq
        split at hp
        case isTrue =>
          rw [hmapc] at hp hq
          rcases List.mem_map.mp hp with ⟨p', hp', hpeq⟩
          rcases List.mem_map.mp hq with ⟨q', hq', hqeq⟩
          rcases List.mem_map.mp hp' with ⟨pd', hpd', hfst⟩
          rcases List.mem_map.mp hq' with ⟨qd', hqd', hfst'⟩
          have hpure := collectDirect_pure c pd' hpd'
          rcases collectWalk_down c qd' hqd' with ⟨st, hst, hdown⟩
          have : p' = q' := by
            have := hpeq.trans hqeq.symm
            simpa using this
          subst this
          rw [hfst] at hpure
          rw [hfst'] at hst
          exact absurd (hpure st hst) (by simp [hdown])
        case isFalse => simp at hp
    · rw [hmaps]
      exact ihs.map fun a b hab => by simpa using hab
    · -- down-prefixed paths vs right-prefixed paths
      intro p hp hq
      rw [hmaps] at hq
      rcases List.mem_map.mp hq with ⟨q', _, hqeq⟩
      rcases List.mem_append.mp hp with hp1 | hp2
      · split at hp1
        · rw [hmapc] at hp1
          rcases List.mem_map.mp hp1 with ⟨p', _, hpeq⟩
          rw [← hpeq] at hqeq; simp at hqeq
        · simp at hp1
      · rw [hmapc] at hp2
        rcases List.mem_map.mp hp2 with ⟨p', _, hpeq⟩
        rw [← hpeq] at hqeq; simp at hqeq

/-- The paths collected for the document are pairwise distinct: no two
entries of `textNodes` are the same node. -/
theorem collectDoc_nodup (doc : HNode) :
    ((collectDoc doc).map Prod.fst).Nodup := by
  cases doc with
  | nilNode => simp [collectDoc]
  | node k d c s =>
    rw [collectDoc, List.map_append]
    have hmapc : ∀ (l : List (List Step × String)),
        (l.map fun pd => (Step.down :: pd.1, pd.2)).map Prod.fst =
          (l.map Prod.fst).map fun p => Step.down :: p := by
      intro l; rw [List.map_map, List.map_map]; rfl
    apply List.Nodup.append
    · split
      · rw [hmapc]
        exact (collectDirect_nodup c).map fun a b hab => by simpa using hab
      · simp
    · rw [hmapc]
      exact (collectWalk_nodup c).map fun a b hab => by simpa using hab
    · intro p hp hq
      split at hp
      case isTrue =>
        rw [hmapc] at hp hq
        rcases List.mem_map.mp hp with ⟨p', hp', hpeq⟩
        rcases List.mem_map.mp hq with ⟨q', hq', hqeq⟩
        rcases List.mem_map.mp hp' with ⟨pd', hpd', hfst⟩
        rcases List.mem_map.mp hq' with ⟨qd', hqd', hfst'⟩
        have hpure := collectDirect_pure c pd' hpd'
        rcases collectWalk_down c qd' hqd' with ⟨st, hst, hdown⟩
        have : p' = q' := by
          have := hpeq.trans hqeq.symm
          simpa using this
        subst this
        rw [hfst] at hpure
        rw [hfst'] at hst
        exact absurd (hpure st hst) (by simp [hdown])
      case isFalse => simp at hp

end TranslEpub

namespace TranslEpub

/-- Mutation steps at other nodes do not change the view at path `p`. -/
theorem foldl_injStep_untouched :
    ∀ (l : List ((List Step × String) × String)) (acc : HNode) (p : List Step),
    (∀ pt ∈ l, pt.1.1 ≠ p) →
    infoAt (l.foldl injStep acc) p = infoAt acc p := by
  intro l
  induction l with
  | nil => intro acc p _; rfl
  | cons pt l' ih =>
    intro acc p hne
    rw [List.foldl_cons]
    rw [ih (injStep acc pt) p fun q hq => hne q (List.mem_cons_of_mem pt hq)]
    exact infoAt_updAt_ne acc p pt.1.1 _ fun h => hne pt (List.mem_cons_self pt l') h.symm

/-- Core of the alignment law: folding the mutation step over the zipped
(`textNodes`, `translatedTexts`) list rewrites the node at position `i` with
segment `i`, given that the collected paths are pairwise distinct and entry
`i` points at a text node holding data `dᵢ`. -/
theorem foldl_injStep_get :
    ∀ (L : List (List Step × String)) (ts : List String) (doc : HNode)
      (i : Nat) (hi : i < L.length) (hit : i < ts.length),
    (L.map Prod.fst).Nodup →
    infoAt doc (L.get ⟨i, hi⟩).1 = some (NodeKind.text, (L.get ⟨i, hi⟩).2) →
    infoAt ((List.zip L ts).foldl injStep doc) (L.get ⟨i, hi⟩).1 =
      some (NodeKind.text, replData (L.get ⟨i, hi⟩).2 (ts.get ⟨i, hit⟩)) := by
  intro L
  induction L with
  | nil => intro ts doc i hi; simp at hi
  | cons pd L' ih =>
    intro ts doc i hi hit hnd hinfo
    cases ts with
    | nil => simp at hit
    | cons t ts' =>
      rw [List.zip_cons_cons, List.foldl_cons]
      rw [List.map_cons, List.nodup_cons] at hnd
      cases i with
      | zero =>
        simp only [List.get] at hinfo ⊢
        have hstep : infoAt (injStep doc (pd, t)) pd.1 =
            some (NodeKind.text, replData pd.2 t) :=
          infoAt_updAt_eq doc pd.1 _ NodeKind.text pd.2 hinfo
        rw [foldl_injStep_untouched (List.zip L' ts') (injStep doc (pd, t)) pd.1 ?_]
        · exact hstep
        · intro pt hpt heq
          have hmem : pt.1 ∈ L' := (List.of_mem_zip hpt).1
          exact hnd.1 (heq ▸ List.mem_map_of_mem Prod.fst hmem)
      | succ i' =>
        simp only [List.get] at hinfo ⊢
        have hne : pd.1 ≠ (L'.get ⟨i', by simpa using hi⟩).1 := by
          intro h
          exact hnd.1 (h ▸ List.mem_map_of_mem Prod.fst (L'.get_mem _ _))
        have hinfo' : infoAt (injStep doc (pd, t)) (L'.get ⟨i', by simpa using hi⟩).1 =
            some (NodeKind.text, (L'.get ⟨i', by simpa using hi⟩).2) := by
          simp only [injStep]
          rw [infoAt_updAt_ne doc _ pd.1 _ (fun h => hne h.symm)]
          exact hinfo
        exact ih ts' (injStep doc (pd, t)) i' (by simpa using hi) (by simpa using hit)
          hnd.2 hinfo'

/-- Positional correctness of reinjection for the document: segment `i` is
written into the node `textNodes[i]` points at, whose data becomes
`replData dᵢ ts[i]`. -/
theorem injDoc_infoAt (doc : HNode) (ts : List String) (i : Nat)
    (hi : i < (collectDoc doc).length) (hit : i < ts.length) :
    infoAt (injDoc doc ts) ((collectDoc doc).get ⟨i, hi⟩).1 =
      some (NodeKind.text,
        replData ((collectDoc doc).get ⟨i, hi⟩).2 (ts.get ⟨i, hit⟩)) := by
  have hmem := (collectDoc doc).get_mem i hi
  have hvalid := collectDoc_valid doc _ hmem
  exact foldl_injStep_get (collectDoc doc) ts doc i hi hit (collectDoc_nodup doc) hvalid.1

end TranslEpub

namespace TranslEpub

/-- The head surviving `dropWhile` fails the predicate. -/
theorem dropWhile_head_false {p : Char → Bool} :
    ∀ (l : List Char) (c : Char) (r : List Char),
    l.dropWhile p = c :: r → p c = false := by
  intro l
  induction l with
  | nil => intro c r h; simp [List.dropWhile] at h
  | cons a l' ih =>
    intro c r h
    rw [List.dropWhile_cons] at h
    split at h
    · exact ih c r h
    · cases h
      rename_i hpa
      simpa using hpa

/-- A non-empty trim result contains a character failing the predicate. -/
theorem trimWith_ne_nil_witness {p : Char → Bool} {l : List Char}
    (h : trimWith p l ≠ []) : ∃ c ∈ trimWith p l, p c = false := by
  rcases hcase : (l.dropWhile p).reverse.dropWhile p with _ | ⟨c, r⟩
  · exact absurd (by rw [trimWith, hcase]; rfl) h
  · refine ⟨c, ?_, dropWhile_head_false _ c r hcase⟩
    rw [trimWith, hcase, List.mem_reverse]
    exact List.mem_cons_self c r

/-- The trim result is empty exactly when every character satisfies the
predicate. -/
theorem trimWith_eq_nil_iff {p : Char → Bool} {l : List Char} :
    trimWith p l = [] ↔ ∀ c ∈ l, p c = true := by
  constructor
  · intro h c hc
    have h2 : (l.dropWhile p).reverse.dropWhile p = [] := by
      rw [trimWith] at h
      exact List.reverse_eq_nil_iff.mp h
    have h3 : ∀ x ∈ l.dropWhile p, p x = true := fun x hx =>
      List.dropWhile_eq_nil_iff.mp h2 x (List.mem_reverse.mpr hx)
    have hc' : c ∈ l.takeWhile p ++ l.dropWhile p := by
      rw [List.takeWhile_append_dropWhile]; exact hc
    rcases List.mem_append.mp hc' with h4 | h4
    · exact List.mem_takeWhile_imp h4
    · exact h3 c h4
  · intro h
    rw [trimWith]
    have h1 : l.dropWhile p = [] := List.dropWhile_eq_nil_iff.mpr fun x hx => h x hx
    rw [h1]
    rfl

end TranslEpub

namespace TranslEpub

/-- Characters of any element appear in the join's tail. -/
theorem mem_data_joinRest {c : Char} {t : String} (sep : String) :
    ∀ (ts : List String), t ∈ ts → c ∈ t.data → c ∈ (joinRest sep ts).data := by
  intro ts
  induction ts with
  | nil => intro h; simp at h
  | cons a rest ih =>
    intro hmem hc
    rw [joinRest]
    simp only [String.data_append, List.mem_append]
    rcases List.mem_cons.mp hmem with rfl | hmem'
    · exact Or.inl (Or.inr hc)
    · exact Or.inr (ih hmem' hc)

/-- Characters of any joined string appear in the join. -/
theorem mem_data_joinSep {c : Char} {t : String} (sep : String) :
    ∀ (ts : List String), t ∈ ts → c ∈ t.data → c ∈ (joinSep sep ts).data := by
  intro ts
  cases ts with
  | nil => intro h; simp at h
  | cons a rest =>
    intro hmem hc
    rw [joinSep]
    simp only [String.data_append, List.mem_append]
    rcases List.mem_cons.mp hmem with rfl | hmem'
    · exact Or.inl hc
    · exact Or.inr (mem_data_joinRest sep rest hmem' hc)

/-- If any fragment was extracted, the joined request text does not trim to
empty, so `translateText` really issues the call. -/
theorem extract_join_trim_ne (doc : HNode) (h : extractDoc doc ≠ []) :
    trimGo (joinDelim (extractDoc doc)) ≠ "" := by
  rcases hL : collectDoc doc with _ | ⟨pd, rest⟩
  · rw [extractDoc, hL] at h; simp at h
  · have hmem0 : pd ∈ collectDoc doc := by rw [hL]; exact List.mem_cons_self pd rest
    have hvalid := collectDoc_valid doc pd hmem0
    have ht0 : trimGo pd.2 ∈ extractDoc doc := by
      rw [extractDoc, hL]
      exact List.mem_cons_self _ _
    have hdata : (trimGo pd.2).data ≠ [] := by
      intro hnil
      exact hvalid.2 (String.ext hnil)
    rcases trimWith_ne_nil_witness (p := goIsSpace) (l := pd.2.data) hdata with ⟨c, hc, hpc⟩
    have hcj : c ∈ (joinDelim (extractDoc doc)).data :=
      mem_data_joinSep delimS (extractDoc doc) ht0 hc
    intro heq
    have : ∀ x ∈ (joinDelim (extractDoc doc)).data, goIsSpace x = true :=
      trimWith_eq_nil_iff.mp (congrArg String.data heq)
    rw [this c hcj] at hpc
    exact Bool.noConfusion hpc

/-- `translateText` on an input that does not trim to empty: issues exactly
one call with the built prompt and returns its extracted text. -/
theorem translateText_ok (service : String → Except String String) (text t : String)
    (h : trimGo text ≠ "") (hs : service (promptFor text) = Except.ok t) :
    translateText service text = ((t, none), [promptFor text]) := by
  rw [translateText, if_neg (by simpa using h), hs]

/-- `translateText` always logs exactly one call when input does not trim to
empty, whatever the service outcome. -/
theorem translateText_log (service : String → Except String String) (text : String)
    (h : trimGo text ≠ "") :
    (translateText service text).2 = [promptFor text] := by
  rw [translateText, if_neg (by simpa using h)]
  rcases service (promptFor text) with e | t <;> rfl

/-- `translateText` short-circuits whitespace-only input (`main.go:24-26`). -/
theorem translateText_short (service : String → Except String String) (text : String)
    (h : trimGo text = "") : translateText service text = (("", none), []) := by
  rw [translateText, if_pos (by simpa using h)]

end TranslEpub

namespace TranslEpub

/-- Parse failure: original content returned with the wrapped error, no call. -/
theorem proc_parse_error (parse : String → Except String HNode)
    (render : HNode → Except String String) (service : String → Except String String)
    (h e : String) (hp : parse h = Except.error e) :
    processHTMLContent parse render service h =
      ((h, some ("HTML parsing error: " ++ e)), []) := by
  rw [processHTMLContent, hp]

/-- No fragments: original content returned immediately, no call (`main.go:79-81`). -/
theorem proc_empty (parse : String → Except String HNode)
    (render : HNode → Except String String) (service : String → Except String String)
    (h : String) (doc : HNode) (hp : parse h = Except.ok doc)
    (hempty : extractDoc doc = []) :
    processHTMLContent parse render service h = ((h, none), []) := by
  rw [processHTMLContent, hp]
  simp [hempty]

/-- Count mismatch after the translation call: the original content is
returned with no error and no reinjection happens (`main.go:91-94`). -/
theorem proc_mismatch (parse : String → Except String HNode)
    (render : HNode → Except String String) (service : String → Except String String)
    (h : String) (doc : HNode) (t : String)
    (hp : parse h = Except.ok doc) (hne : extractDoc doc ≠ [])
    (hs : service (promptFor (joinDelim (extractDoc doc))) = Except.ok t)
    (hlen : (splitDelim t).length ≠ (extractDoc doc).length) :
    processHTMLContent parse render service h =
      ((h, none), [promptFor (joinDelim (extractDoc doc))]) := by
  rw [processHTMLContent, hp]
  dsimp only
  rw [if_neg (by simpa [List.length_eq_zero] using hne)]
  rw [translateText_ok service _ t (extract_join_trim_ne doc hne) hs]
  simp only []
  rw [if_pos hlen]

/-- Full success path: count match and successful render. -/
theorem proc_success (parse : String → Except String HNode)
    (render : HNode → Except String String) (service : String → Except String String)
    (h : String) (doc : HNode) (t out : String)
    (hp : parse h = Except.ok doc) (hne : extractDoc doc ≠ [])
    (hs : service (promptFor (joinDelim (extractDoc doc))) = Except.ok t)
    (hlen : (splitDelim t).length = (extractDoc doc).length)
    (hr : render (injDoc doc (splitDelim t)) = Except.ok out) :
    processHTMLContent parse render service h =
      ((out, none), [promptFor (joinDelim (extractDoc doc))]) := by
  rw [processHTMLContent, hp]
  dsimp only
  rw [if_neg (by simpa [List.length_eq_zero] using hne)]
  rw [translateText_ok service _ t (extract_join_trim_ne doc hne) hs]
  simp only []
  rw [if_neg (by simpa using hlen), hr]

/-- Whenever any fragment exists, exactly one call with the joined prompt is
issued, whatever the service and render outcomes. -/
theorem proc_log (parse : String → Except String HNode)
    (render : HNode → Except String String) (service : String → Except String String)
    (h : String) (doc : HNode)
    (hp : parse h = Except.ok doc) (hne : extractDoc doc ≠ []) :
    (processHTMLContent parse render service h).2 =
      [promptFor (joinDelim (extractDoc doc))] := by
  rw [processHTMLContent, hp]
  dsimp only
  rw [if_neg (by simpa [List.length_eq_zero] using hne)]
  have hlog := translateText_log service (joinDelim (extractDoc doc))
    (extract_join_trim_ne doc hne)
  rcases htc : translateText service (joinDelim (extractDoc doc)) with ⟨⟨t, terr⟩, log⟩
  rw [htc] at hlog
  simp only at hlog
  subst hlog
  rcases terr with _ | e
  · simp only []
    split
    · rfl
    · rcases render (injDoc doc (splitDelim t)) with e | out <;> rfl
  · rfl

/-- Error atomicity: if `processHTMLContent` reports an error, it hands back
its input unchanged. -/
theorem proc_err_original (parse : String → Except String HNode)
    (render : HNode → Except String String) (service : String → Except String String)
    (h : String) :
    (processHTMLContent parse render service h).1.1 = h ∨
      (processHTMLContent parse render service h).1.2 = none := by
  rw [processHTMLContent]
  rcases parse h with e | doc
  all_goals dsimp only
  · exact Or.inl rfl
  · split
    · exact Or.inr rfl
    · rcases translateText service (joinDelim (extractDoc doc)) with ⟨⟨t, terr⟩, log⟩
      rcases terr with _ | e
      · simp only []
        split
        · exact Or.inr rfl
        · rcases render (injDoc doc (splitDelim t)) with e | out
          · exact Or.inl rfl
          · exact Or.inr rfl
      · exact Or.inl rfl

end TranslEpub

namespace TranslEpub

/-- The Go slice arithmetic at `main.go:99` computes exactly the maximal
leading run of `" \t\n\r"` characters. -/
theorem leadingSpaceOf_eq (d : String) :
    leadingSpaceOf d = ⟨d.data.takeWhile isCut⟩ := by
  rw [leadingSpaceOf]
  have hsplit : d.data.takeWhile isCut ++ d.data.dropWhile isCut = d.data :=
    List.takeWhile_append_dropWhile isCut d.data
  have hlen : (d.data.takeWhile isCut).length + (d.data.dropWhile isCut).length =
      d.data.length := by
    rw [← List.length_append, hsplit]
  have hn : d.data.length - (d.data.dropWhile isCut).length =
      (d.data.takeWhile isCut).length := by omega
  rw [hn]
  congr 1
  nth_rewrite 2 [← hsplit]
  exact List.take_left' rfl

/-- The Go slice arithmetic at `main.go:100` computes exactly the maximal
trailing run of `" \t\n\r"` characters. -/
theorem trailingSpaceOf_eq (d : String) :
    trailingSpaceOf d = ⟨(d.data.reverse.takeWhile isCut).reverse⟩ := by
  rw [trailingSpaceOf]
  congr 1
  have hsplit : d.data.reverse.takeWhile isCut ++ d.data.reverse.dropWhile isCut =
      d.data.reverse := List.takeWhile_append_dropWhile isCut d.data.reverse
  have hrev : d.data = (d.data.reverse.dropWhile isCut).reverse ++
      (d.data.reverse.takeWhile isCut).reverse := by
    have h1 := congrArg List.reverse hsplit
    rw [List.reverse_append, List.reverse_reverse] at h1
    exact h1.symm
  rw [List.length_reverse]
  nth_rewrite 2 [hrev]
  exact List.drop_left' (by rw [List.length_reverse])

/-- `replData` rewrites a node's content to the maximal leading whitespace
run, the translated text, and the maximal trailing whitespace run. -/
theorem replData_runs (d t : String) :
    replData d t = (⟨d.data.takeWhile isCut⟩ : String) ++ t ++
      ⟨(d.data.reverse.takeWhile isCut).reverse⟩ := by
  rw [replData, leadingSpaceOf_eq, trailingSpaceOf_eq]

/-- The output archive's member names are exactly the input member names
whose open and create both succeeded, in input order. -/
theorem runPipeline_names (parse : String → Except String HNode)
    (render : HNode → Except String String) (service : String → Except String String)
    (ms : List ZMember) :
    (runPipeline parse render service ms).map Prod.fst =
      (ms.filter fun m => m.openOk && m.createOk).map ZMember.name := by
  induction ms with
  | nil => rfl
  | cons m rest ih =>
    rw [runPipeline, List.filterMap_cons, List.filter_cons]
    cases ho : m.openOk with
    | false => simpa [processMember, ho] using ih
    | true =>
      cases hc : m.createOk with
      | false => simpa [processMember, ho, hc] using ih
      | true =>
        cases hm : isMarkupName m.name with
        | false => simpa [processMember, ho, hc, hm] using ih
        | true => simpa [processMember, ho, hc, hm] using ih

end TranslEpub

namespace TranslEpub

/-- The code's extraction of a sibling chain collects, up to order, exactly
what the spec's DFS emits with the code's Unicode trim. -/
theorem dfsEmit_perm : ∀ (chain : HNode) (P : Bool),
    (dfsEmit trimGo P chain).Perm
      ((if P then (collectDirect chain).map (fun pd => trimGo pd.2) else []) ++
        (collectWalk chain).map fun pd => trimGo pd.2) := by
  intro chain
  have hmap : ∀ (st : Step) (l : List (List Step × String)),
      (l.map fun pd => (st :: pd.1, pd.2)).map (fun pd => trimGo pd.2) =
        l.map fun pd => trimGo pd.2 := by
    intro st l; rw [List.map_map]; rfl
  induction chain with
  | nilNode => intro P; cases P <;> simp [dfsEmit, collectDirect, collectWalk]
  | node k d c s ihc ihs =>
    intro P
    rw [dfsEmit, collectDirect, collectWalk]
    rw [List.perm_iff_count]
    intro a
    have hc := List.perm_iff_count.mp (ihc (k == NodeKind.element && d == "p")) a
    have hs := List.perm_iff_count.mp (ihs P) a
    simp only [List.map_append, List.count_append, hmap] at hc hs ⊢
    cases hP : P <;> cases hk : (k == NodeKind.text && trimGo d != "") <;>
      cases he : (k == NodeKind.element && d == "p") <;>
      simp only [hP, hk, he, Bool.true_and, Bool.false_and, Bool.and_true,
        Bool.and_false, Bool.false_eq_true, Bool.true_eq_false, if_true, if_false,
        ite_true, ite_false, ite_self, List.count_append, List.count_nil,
        List.map_nil, List.map_append, List.map_singleton, hmap] at hc hs ⊢ <;>
      omega

/-- Up to order, the code's extraction equals the spec's DFS emission with
the code's Unicode trim. -/
theorem extract_perm_spec (doc : HNode) :
    (extractDoc doc).Perm (specFragments trimGo doc) := by
  cases doc with
  | nilNode => simp [extractDoc, collectDoc, specFragments]
  | node k d c s =>
    have hmap : ∀ (st : Step) (l : List (List Step × String)),
        (l.map fun pd => (st :: pd.1, pd.2)).map (fun pd => trimGo pd.2) =
          l.map fun pd => trimGo pd.2 := by
      intro st l; rw [List.map_map]; rfl
    rw [extractDoc, collectDoc, specFragments]
    have hite : List.map (fun pd => trimGo pd.2)
        (if (k == NodeKind.element && d == "p") = true
          then List.map (fun pd => (Step.down :: pd.1, pd.2)) (collectDirect c) else []) =
        (if (k == NodeKind.element && d == "p") = true
          then List.map (fun pd => trimGo pd.2) (collectDirect c) else []) := by
      split
      · rw [hmap]
      · rfl
    rw [List.map_append, hite, hmap]
    exact (dfsEmit_perm c (k == NodeKind.element && d == "p")).symm

end TranslEpub

namespace TranslEpub

/-- `getD` at an in-range index is `get`. -/
theorem getD_of_lt {α : Type} (l : List α) (i : Nat) (a : α) (h : i < l.length) :
    l.getD i a = l.get ⟨i, h⟩ := by
  rw [List.getD_eq_getElem?_getD, List.getElem?_eq_getElem h]
  rfl

end TranslEpub

namespace TranslEpub

/-- C1: if the split of the translated response yields a segment count
different from the number of extracted fragments, `processHTMLContent`
applies no substitution and returns the member's original content unchanged
(output equals input exactly), with no error; the batch is all-or-nothing. -/
theorem claim_c1_mismatch_keeps_original (parse : String → Except String HNode)
    (render : HNode → Except String String) (service : String → Except String String)
    (h : String) (doc : HNode) (t : String)
    (hp : parse h = Except.ok doc) (hne : extractDoc doc ≠ [])
    (hs : service (promptFor (joinDelim (extractDoc doc))) = Except.ok t)
    (hlen : (splitDelim t).length ≠ (extractDoc doc).length) :
    processHTMLContent parse render service h =
      ((h, none), [promptFor (joinDelim (extractDoc doc))]) :=
  proc_mismatch parse render service h doc t hp hne hs hlen

theorem claim_c1_witness :
    processHTMLContent (parseTo docHi) renderOk serviceAB "<p>  Hi  </p>" =
      (("<p>  Hi  </p>", none), [promptFor (joinDelim (extractDoc docHi))]) :=
  claim_c1_mismatch_keeps_original (parseTo docHi) renderOk serviceAB
    "<p>  Hi  </p>" docHi "A\n---\nB" rfl (by decide) rfl (by decide)

/-- C2: when the translated response splits into exactly N segments for N
extracted fragments, reinjection writes segment `i` into the text node from
which fragment `i` was extracted (the node `textNodes[i]` points at), for
every `i < N`; position in extraction order is the correlation key. -/
theorem claim_c2_positional_reinjection (doc : HNode) (ts : List String) (i : Nat)
    (hlen : ts.length = (extractDoc doc).length) (hi : i < ts.length) :
    infoAt doc ((collectDoc doc).getD i ([], "")).1 =
      some (NodeKind.text, ((collectDoc doc).getD i ([], "")).2) ∧
    (extractDoc doc).getD i "" = trimGo ((collectDoc doc).getD i ([], "")).2 ∧
    infoAt (injDoc doc ts) ((collectDoc doc).getD i ([], "")).1 =
      some (NodeKind.text,
        replData ((collectDoc doc).getD i ([], "")).2 (ts.getD i "")) := by
  have hClen : (extractDoc doc).length = (collectDoc doc).length :=
    List.length_map _ _
  have hi' : i < (collectDoc doc).length := by omega
  have hie : i < (extractDoc doc).length := by omega
  rw [getD_of_lt (collectDoc doc) i ([], "") hi', getD_of_lt ts i "" hi,
    getD_of_lt (extractDoc doc) i "" hie]
  refine ⟨(collectDoc_valid doc _ (List.get_mem _ i hi')).1, ?_,
    injDoc_infoAt doc ts i hi' hi⟩
  simp only [extractDoc, List.getElem_map, List.get_eq_getElem]

theorem claim_c2_witness :
    infoAt docHi ((collectDoc docHi).getD 0 ([], "")).1 =
      some (NodeKind.text, ((collectDoc docHi).getD 0 ([], "")).2) ∧
    (extractDoc docHi).getD 0 "" = trimGo ((collectDoc docHi).getD 0 ([], "")).2 ∧
    infoAt (injDoc docHi ["Salut"]) ((collectDoc docHi).getD 0 ([], "")).1 =
      some (NodeKind.text,
        replData ((collectDoc docHi).getD 0 ([], "")).2 (["Salut"].getD 0 "")) :=
  claim_c2_positional_reinjection docHi ["Salut"] 0 (by decide) (by decide)

/-- C3: the reinjected node's new content is the maximal leading whitespace
run of the original node text (over space, tab, newline, carriage return),
then translated segment `i`, then the maximal trailing whitespace run. -/
theorem claim_c3_whitespace_runs (doc : HNode) (ts : List String) (i : Nat)
    (hlen : ts.length = (extractDoc doc).length) (hi : i < ts.length) :
    infoAt (injDoc doc ts) ((collectDoc doc).getD i ([], "")).1 =
      some (NodeKind.text,
        (⟨((collectDoc doc).getD i ([], "")).2.data.takeWhile isCut⟩ : String) ++
          ts.getD i "" ++
          ⟨(((collectDoc doc).getD i ([], "")).2.data.reverse.takeWhile isCut).reverse⟩) := by
  have hClen : (extractDoc doc).length = (collectDoc doc).length :=
    List.length_map _ _
  have hi' : i < (collectDoc doc).length := by omega
  rw [← replData_runs]
  rw [getD_of_lt (collectDoc doc) i ([], "") hi', getD_of_lt ts i "" hi]
  exact injDoc_infoAt doc ts i hi' hi

theorem claim_c3_witness :
    (infoAt (injDoc docHello ["Bonjour"]) ((collectDoc docHello).getD 0 ([], "")).1 =
      some (NodeKind.text,
        (⟨((collectDoc docHello).getD 0 ([], "")).2.data.takeWhile isCut⟩ : String) ++
          (["Bonjour"].getD 0 "") ++
          ⟨(((collectDoc docHello).getD 0 ([], "")).2.data.reverse.takeWhile isCut).reverse⟩)) ∧
    ((⟨((collectDoc docHello).getD 0 ([], "")).2.data.takeWhile isCut⟩ : String) ++
        (["Bonjour"].getD 0 "") ++
        ⟨(((collectDoc docHello).getD 0 ([], "")).2.data.reverse.takeWhile isCut).reverse⟩ =
      "  Bonjour  \n") :=
  ⟨claim_c3_whitespace_runs docHello ["Bonjour"] 0 (by decide) (by decide), by decide⟩

/-- C4 counterexample: a text node holding a single vertical tab `U+000B` is
a direct child of a `p` element and is non-empty after trimming only space,
tab, newline and carriage return, so the claim's extraction (spec wording,
four-character trim) emits a fragment for it — but the code trims with
`unicode.IsSpace`, treats it as blank and emits nothing. -/
theorem claim_c4_counterexample :
    extractDoc docVT = [] ∧ specFragments trim4 docVT = ["\x0B"] := by
  constructor
  · decide
  · decide

/-- C4 (amended): extraction emits, up to order, exactly one fragment for
each text node that is a direct child of a `"p"` element and whose content
is non-empty after trimming Unicode whitespace (Go `strings.TrimSpace`),
the fragment being the so-trimmed content. -/
theorem claim_c4_extraction_fragments (doc : HNode) :
    (extractDoc doc).Perm (specFragments trimGo doc) :=
  extract_perm_spec doc

/-- C5 (amended): for every member with a non-empty fragment list, exactly
one translation call is made, whose payload is the fragment texts joined
with the fixed delimiter embedded in the fixed translation prompt. -/
theorem claim_c5_single_call (parse : String → Except String HNode)
    (render : HNode → Except String String) (service : String → Except String String)
    (h : String) (doc : HNode)
    (hp : parse h = Except.ok doc) (hne : extractDoc doc ≠ []) :
    (processHTMLContent parse render service h).2 =
      [promptFor (joinDelim (extractDoc doc))] :=
  proc_log parse render service h doc hp hne

theorem claim_c5_witness :
    (processHTMLContent (parseTo docHiBye) renderOk serviceAB "x").2 =
      [promptFor (joinDelim (extractDoc docHiBye))] :=
  claim_c5_single_call (parseTo docHiBye) renderOk serviceAB "x" docHiBye rfl
    (by decide)

set_option maxRecDepth 4096 in
/-- C5 counterexample: the single call's payload for fragments `Hi`, `Bye`
contains the delimiter exactly once — only as the separator inside the
joined fragment text.  The fixed prompt instructs translation and bans extra
commentary, but it never mentions the delimiter, so no instruction to
preserve the delimiter verbatim is part of the payload, contrary to the
claim. -/
theorem claim_c5_counterexample :
    (processHTMLContent (parseTo docHiBye) renderOk serviceAB "x").2 =
      [promptFor "Hi\n---\nBye"] ∧
    (splitL "---".data (promptFor "Hi\n---\nBye").data).length = 2 := by
  constructor
  · decide
  · decide

end TranslEpub

namespace TranslEpub

/-- C6 counterexample: a member whose open fails is skipped with `continue`
before any output entry is created, so the output member-name sequence is
not the input sequence — the claim's "never omitting a member" fails. -/
theorem claim_c6_counterexample :
    (runPipeline (parseTo docHi) renderOk serviceAB [mOpenFail]).map Prod.fst ≠
      [mOpenFail].map ZMember.name := by
  decide

/-- C6 (amended): the output archive contains exactly the members whose open
and create both succeeded, in input order; for each of those the loop always
writes an entry and the run never aborts mid-archive. -/
theorem claim_c6_member_names (parse : String → Except String HNode)
    (render : HNode → Except String String) (service : String → Except String String)
    (ms : List ZMember) :
    (runPipeline parse render service ms).map Prod.fst =
      (ms.filter fun m => m.openOk && m.createOk).map ZMember.name :=
  runPipeline_names parse render service ms

/-- C7: a markup member with zero eligible fragments is returned immediately
with its content bit-identical, no error, and zero translation calls. -/
theorem claim_c7_empty_fragments (parse : String → Except String HNode)
    (render : HNode → Except String String) (service : String → Except String String)
    (h : String) (doc : HNode) (hp : parse h = Except.ok doc)
    (hempty : extractDoc doc = []) :
    processHTMLContent parse render service h = ((h, none), []) :=
  proc_empty parse render service h doc hp hempty

theorem claim_c7_witness :
    processHTMLContent (parseTo docDiv) renderOk serviceAB "<div>Hi</div>" =
      (("<div>Hi</div>", none), []) :=
  claim_c7_empty_fragments (parseTo docDiv) renderOk serviceAB "<div>Hi</div>"
    docDiv rfl (by decide)

/-- C8: a member whose name has no markup extension is copied to the output
byte-for-byte unchanged, with no parsing or translation applied (given its
per-member I/O succeeds). -/
theorem claim_c8_passthrough (parse : String → Except String HNode)
    (render : HNode → Except String String) (service : String → Except String String)
    (m : ZMember) (hopen : m.openOk = true) (hcreate : m.createOk = true)
    (hmk : isMarkupName m.name = false) (hcopy : m.copyOk = true) :
    processMember parse render service m = some (m.name, m.content) := by
  rw [processMember, hopen, hcreate]
  simp [hmk, hcopy]

theorem claim_c8_witness :
    processMember (parseTo docHi) renderOk serviceAB mImage =
      some ("image.bin", "BYTES") :=
  claim_c8_passthrough (parseTo docHi) renderOk serviceAB mImage rfl rfl
    (by decide) rfl

/-- C9: for an input that is empty or consists only of whitespace,
`translateText` returns the empty string with no error and performs no
service call. -/
theorem claim_c9_whitespace_short (service : String → Except String String)
    (text : String) (hws : ∀ c ∈ text.data, goIsSpace c = true) :
    translateText service text = (("", none), []) :=
  translateText_short service text (String.ext (trimWith_eq_nil_iff.mpr hws))

theorem claim_c9_witness :
    translateText serviceAB " \t\n" = (("", none), []) :=
  claim_c9_whitespace_short serviceAB " \t\n" (by decide)

/-- C10: whenever `processHTMLContent` returns a non-nil error, the string
it returns equals its input exactly (error atomicity of the return value). -/
theorem claim_c10_error_atomicity (parse : String → Except String HNode)
    (render : HNode → Except String String) (service : String → Except String String)
    (h : String)
    (herr : (processHTMLContent parse render service h).1.2 ≠ none) :
    (processHTMLContent parse render service h).1.1 = h := by
  rcases proc_err_original parse render service h with hout | hnone
  · exact hout
  · exact absurd hnone herr

theorem claim_c10_witness :
    (processHTMLContent parseFail renderOk serviceAB "<p>x</p>").1.1 =
      "<p>x</p>" :=
  claim_c10_error_atomicity parseFail renderOk serviceAB "<p>x</p>" (by decide)

end TranslEpub
